import Mathlib

/-
Verification of the SolvingMicroDSOPs consumption-savings solver
(src/SolvingMicroDSOPs.py) against its specification.

Real ("float") arithmetic of the source is embedded as exact real
arithmetic over ℝ.  Discretized shock distributions are finite lists of
(value, probability) pairs.  Piecewise-linear interpolation
(InterpolatedUnivariateSpline with k=1) is embedded as `interp`.
-/

/-- Modelled from the spec: `Utility.marginal(c) = c^(-ρ)` (§4.1).
The `Utility` class lives in `Code/Python/resources.py`, which is not part
of src/; only its interface is specified. -/
noncomputable def uprime (rho c : ℝ) : ℝ := c ^ (-rho)

/-- Python's `min` over a list of reals (used for `min(theta.X)`), with
junk value 0 on the empty list (where the source would raise). -/
noncomputable def listMin : List ℝ → ℝ
  | [] => 0
  | [x] => x
  | x :: y :: t => min x (listMin (y :: t))

/-- One linear segment through knots `p` and `q`, evaluated at `x`:
`p.2 + (x - p.1) * (q.2 - p.2) / (q.1 - p.1)`. -/
noncomputable def seg (p q : ℝ × ℝ) (x : ℝ) : ℝ :=
  p.2 + (x - p.1) * (q.2 - p.2) / (q.1 - p.1)

/-- Piecewise-linear interpolation through a list of `(state, control)`
knots with linear extrapolation from the end segments — the shallow
embedding of `InterpolatedUnivariateSpline(mVec, cVec, k=1)`. -/
noncomputable def interp : List (ℝ × ℝ) → ℝ → ℝ
  | [], _ => 0
  | [p], _ => p.2
  | [p, q], x => seg p q x
  | p :: q :: r :: rest, x =>
    if x ≤ q.1 then seg p q x else interp (q :: r :: rest) x

/-- Relation on interpolation knots: strictly increasing in both the
state and the control coordinate. -/
def knotRel : ℝ × ℝ → ℝ × ℝ → Prop := fun u v => u.1 < v.1 ∧ u.2 < v.2

/-- Invariant maintained by every period of the life-cycle solve: both
knot lists strictly increasing, of equal length at least 2, the state
list starting at a non-positive constraint boundary and the control list
starting at 0. -/
def knotsInv : List ℝ × List ℝ → Prop := fun k =>
  k.1.Chain' (· < ·) ∧ k.2.Chain' (· < ·) ∧ k.1.length = k.2.length ∧
  2 ≤ k.1.length ∧ (∃ m0 ms', k.1 = m0 :: ms' ∧ m0 ≤ 0) ∧ (∃ cs', k.2 = 0 :: cs')

/-- The single-shock "Gothic" expectation engine.  Configuration of
`Gothic(u, beta, rho, PermGroFac, R, theta)`: `Gamma` stands for the
scalar `PermGroFac[0]` (= `Gamma[-1]`), `theta` is the discretized
transitory-shock distribution as (value, probability) pairs. -/
structure Gothic where
  beta : ℝ
  rho : ℝ
  Gamma : ℝ
  R : ℝ
  theta : List (ℝ × ℝ)

/-- Modelled from the spec: `expected_marginal_value(a, none)` (§4.3), the
terminal-case 𝔙′ of the `Gothic` class (`Code/Python/gothic_class.py`, not
in src/): `discount · gross_return · growth_factor^(-ρ) ·
E(θ ↦ marginal(gross_return·a/growth_factor + θ))`. -/
noncomputable def Gothic.VP_Tminus1 (G : Gothic) (a : ℝ) : ℝ :=
  G.beta * G.R * G.Gamma ^ (-G.rho) *
    (G.theta.map (fun vp => vp.2 * uprime G.rho (G.R * a / G.Gamma + vp.1))).sum

/-- Modelled from the spec: `expected_marginal_value(a, c_next)` (§4.3)
with a next-period consumption policy (`gothic_class.py` not in src/):
the inner marginal utility is evaluated at `c_next(gross_return·a/growth + θ)`. -/
noncomputable def Gothic.VP_t (G : Gothic) (a : ℝ) (cnext : ℝ → ℝ) : ℝ :=
  G.beta * G.R * G.Gamma ^ (-G.rho) *
    (G.theta.map (fun vp => vp.2 * uprime G.rho (cnext (G.R * a / G.Gamma + vp.1)))).sum

/-- Modelled from the spec: `implied_consumption(a, none)` (§4.3) =
`inverse_marginal(expected_marginal_value(a, none))` = 𝔙′(a)^(-1/ρ). -/
noncomputable def Gothic.C_Tminus1 (G : Gothic) (a : ℝ) : ℝ :=
  G.VP_Tminus1 a ^ ((-1 : ℝ) / G.rho)

/-- Modelled from the spec: `implied_consumption(a, c_next)` (§4.3). -/
noncomputable def Gothic.C_t (G : Gothic) (a : ℝ) (cnext : ℝ → ℝ) : ℝ :=
  G.VP_t a cnext ^ ((-1 : ℝ) / G.rho)

/-- The natural borrowing limit, src line 158:
`self_a_min = -min(theta.X) * PermGroFac[0] / R`. -/
noncomputable def Gothic.self_a_min (G : Gothic) : ℝ :=
  -listMin (G.theta.map Prod.fst) * G.Gamma / G.R

/-- The raw (unclipped) implied consumption used by the life-cycle grid
sweep: `gothic.C_Tminus1(a)` in the terminal step and
`gothic.C_t(a, cFunc)` in every other step (src lines 909 and 933). -/
noncomputable def rawC (G : Gothic) (cn : Option (ℝ → ℝ)) (a : ℝ) : ℝ :=
  match cn with
  | none => G.C_Tminus1 a
  | some f => G.C_t a f

/-- One period of the EGM grid sweep of the simple life-cycle solver
(src lines 903-917 and 928-941): the knot state list `mVec` and control
list `cVec`.  The first knot is `(0, 0)` when `constrained` and
`self_a_min < 0`, else `(self_a_min, 0)`; each grid point `a` contributes
`m = c + a` and `c` (clipped to `min(c, m)` when `constrained`). -/
noncomputable def periodKnots (G : Gothic) (constrained : Bool) (grid : List ℝ)
    (cn : Option (ℝ → ℝ)) : List ℝ × List ℝ :=
  ((if constrained = true ∧ G.self_a_min < 0 then (0 : ℝ) else G.self_a_min) ::
      grid.map (fun a => rawC G cn a + a),
   (0 : ℝ) ::
      grid.map (fun a =>
        if constrained = true then min (rawC G cn a) (rawC G cn a + a) else rawC G cn a))

/-- State of the simple backward life-cycle loop (src lines 896-946) after
`n` iterations of the `for t in range(T-2, -1, -1)` loop: the dictionary
`cFunc_life` (period index ↦ stored knots) and the currently held knots
(whose interpolation is the `cFunc` passed to the next iteration).
Iteration `n` (0-based) solves period `t = T-2-n`; the terminal setup
stores period `T-1`. -/
noncomputable def lifeState (G : Gothic) (constrained : Bool) (grid : List ℝ) (T : ℕ) :
    ℕ → ((ℕ → Option (List ℝ × List ℝ)) × (List ℝ × List ℝ))
  | 0 =>
    (fun p => if p = T - 1 then some (periodKnots G constrained grid none) else none,
     periodKnots G constrained grid none)
  | n + 1 =>
    (fun p =>
      if p = T - 2 - n then
        some (periodKnots G constrained grid
          (some (interp ((lifeState G constrained grid T n).2.1.zip
            (lifeState G constrained grid T n).2.2))))
      else (lifeState G constrained grid T n).1 p,
     periodKnots G constrained grid
       (some (interp ((lifeState G constrained grid T n).2.1.zip
         (lifeState G constrained grid T n).2.2))))

/-- Iterated `log(x + 1)`, nested `n` times — the `while i <= timestonest` loop of
`setup_grids_expMult` (src lines 685-690). -/
noncomputable def nestLog : ℕ → ℝ → ℝ
  | 0, x => x
  | n + 1, x => Real.log (nestLog n x + 1)

/-- Iterated `exp(x) - 1`, nested `n` times — the `points[size-j] = np.exp(...) - 1`
assignments of `setup_grids_expMult` (src lines 696-699): one application
at the outer loop plus `timestonest - 1` at the inner loop, `n` in all. -/
noncomputable def nestExp : ℕ → ℝ → ℝ
  | 0, x => x
  | n + 1, x => Real.exp (nestExp n x) - 1

/-- The multi-exponential growth grid `setup_grids_expMult(minval, maxval,
size, timestonest)` (src lines 684-701).  Position `size - j`
(j = 1..size) holds `nestExp timestonest (gMaxNested - (j-1)*index)`,
i.e. position `k` holds the value for `j = size - k`.  `minval` is
accepted but unused, exactly as in the source. -/
noncomputable def setup_grids_expMult (minval maxval : ℝ) (size : ℕ)
    (timestonest : ℕ := 20) : List ℝ :=
  let gMaxNested := nestLog timestonest maxval
  let index := gMaxNested / (size : ℝ)
  (List.range size).map (fun k =>
    nestExp timestonest (gMaxNested - ((size - 1 - k : ℕ) : ℝ) * index))

/-- Modelled from the spec: expectation over two independent discretized
distributions (§4.2, `DiscreteApproximationTwoIndependentDistribs.E` from
`Code/Python/resources.py`, not in src/):
`Σ_i Σ_j p1_i · p2_j · f(value1_i, value2_j)`. -/
noncomputable def jointE (inc ret : List (ℝ × ℝ)) (f : ℝ → ℝ → ℝ) : ℝ :=
  (inc.map (fun n1 => (ret.map (fun n2 => n1.2 * n2.2 * f n1.1 n2.1)).sum)).sum

/-- The multiple-control "GothicMC" engine (src lines 996-1020).
`Gamma = PermGroFac[-1]`; the joint `Distribution` of the transitory
income shock and the risky return is carried as its two independent
marginals `inc` and `ret`; `varsigma_grids = np.linspace(0, 1,
share_grid_size)` is carried as the list itself. -/
structure GothicMC where
  beta : ℝ
  rho : ℝ
  Gamma : ℝ
  R : ℝ
  inc : List (ℝ × ℝ)
  ret : List (ℝ × ℝ)
  varsigma_grids : List ℝ

/-- Embeds `GothicMC.Vsigma_Tminus1` (src lines 1116-1135): the marginal value of
the portfolio share in the last period; `np.inf` (here `⊤ : EReal`) when
`a = 0`. -/
noncomputable def GothicMC.Vsigma_Tminus1 (M : GothicMC) (a varsigma : ℝ) : EReal :=
  if a ≠ 0 then
    ((M.beta * a / M.Gamma * jointE M.inc M.ret (fun tinc_shk rreturn =>
        (rreturn - M.R) * uprime M.rho
          ((M.R + (rreturn - M.R) * varsigma) * a / M.Gamma + tinc_shk)) : ℝ) : EReal)
  else (⊤ : EReal)

/-- Embeds `GothicMC.Vsigma_t` (src lines 1137-1156): as `Vsigma_Tminus1` but the
marginal utility is evaluated at `c_prime` of the portfolio argument. -/
noncomputable def GothicMC.Vsigma_t (M : GothicMC) (a varsigma : ℝ) (c_prime : ℝ → ℝ) :
    EReal :=
  if a ≠ 0 then
    ((M.beta * a / M.Gamma * jointE M.inc M.ret (fun tinc_shk rreturn =>
        (rreturn - M.R) * uprime M.rho
          (c_prime ((M.R + (rreturn - M.R) * varsigma) * a / M.Gamma + tinc_shk))) :
      ℝ) : EReal)
  else (⊤ : EReal)

/-- The share-selection logic shared verbatim by `varsigma_Tminus1` and
`varsigma_t` (src lines 1035-1051 and 1061-1077), acting on the share grid
and the list `FOC_s` of marginal values evaluated at each grid share:
`0` for `a < 0`; corner `1` when the FOC is still positive at the last
grid share; corner `0` when it is negative at the first; otherwise locate
the first adjacent pair with `FOC_s[i] ≥ 0 ≥ FOC_s[i+1]`
(`np.logical_and(FOC_s[1:] <= 0.0, FOC_s[:-1] >= 0.0)`, first index) and
linearly interpolate the zero crossing.  The `none` branch is the
totalization of the source's `np.argwhere(...)[0]` indexing error. -/
noncomputable def optimalShareFromFOC (sgrids : List ℝ) (FOC_s : List EReal) (a : ℝ) : ℝ :=
  if a < 0 then 0
  else if 0 < FOC_s.getLastD 0 then 1
  else if FOC_s.headD 0 < 0 then 0
  else
    match ((sgrids.zip FOC_s).zip (sgrids.zip FOC_s).tail).find?
        (fun pr => decide (pr.2.2 ≤ 0) && decide (0 ≤ pr.1.2)) with
    | some pr =>
      (1 - (1 - pr.2.2.toReal / (pr.2.2.toReal - pr.1.2.toReal))) * pr.1.1 +
        (1 - pr.2.2.toReal / (pr.2.2.toReal - pr.1.2.toReal)) * pr.2.1
    | none => 0

/-- Embeds `GothicMC.varsigma_Tminus1` (src lines 1022-1051): build
`FOC_s[j] = Vsigma_Tminus1(a, share_grid[j])` and select the share. -/
noncomputable def GothicMC.varsigma_Tminus1 (M : GothicMC) (a : ℝ) : ℝ :=
  optimalShareFromFOC M.varsigma_grids
    (M.varsigma_grids.map (fun s => M.Vsigma_Tminus1 a s)) a

/-- Embeds `GothicMC.varsigma_t` (src lines 1053-1077). -/
noncomputable def GothicMC.varsigma_t (M : GothicMC) (a : ℝ) (c_prime : ℝ → ℝ) : ℝ :=
  optimalShareFromFOC M.varsigma_grids
    (M.varsigma_grids.map (fun s => M.Vsigma_t a s c_prime)) a

/-- Embeds `GothicMC.Va_Tminus1` (src lines 1085-1100): expected marginal value
of assets at the optimal share, `beta * Gamma^(-rho) * E((θ,R) ↦
𝕽 · u'(𝕽·a/Γ + θ))` with `𝕽 = R + (R_risky - R)·ς*`. -/
noncomputable def GothicMC.Va_Tminus1 (M : GothicMC) (a : ℝ) : ℝ :=
  M.beta * M.Gamma ^ (-M.rho) * jointE M.inc M.ret (fun tinc_shk rreturn =>
    (M.R + (rreturn - M.R) * M.varsigma_Tminus1 a) *
      uprime M.rho
        ((M.R + (rreturn - M.R) * M.varsigma_Tminus1 a) * a / M.Gamma + tinc_shk))

/-- Embeds `GothicMC.Va_t` (src lines 1102-1114). -/
noncomputable def GothicMC.Va_t (M : GothicMC) (a : ℝ) (c_prime : ℝ → ℝ) : ℝ :=
  M.beta * M.Gamma ^ (-M.rho) * jointE M.inc M.ret (fun tinc_shk rreturn =>
    (M.R + (rreturn - M.R) * M.varsigma_t a c_prime) *
      uprime M.rho
        (c_prime ((M.R + (rreturn - M.R) * M.varsigma_t a c_prime) * a / M.Gamma +
          tinc_shk)))

/-- Embeds `GothicMC.C_Tminus1` (src lines 1079-1080):
`Va_Tminus1(a) ** (-1.0 / rho)`. -/
noncomputable def GothicMC.C_Tminus1 (M : GothicMC) (a : ℝ) : ℝ :=
  M.Va_Tminus1 a ^ ((-1 : ℝ) / M.rho)

/-- Embeds `GothicMC.C_t` (src lines 1082-1083): `Va_t(a, c_prime) ** (-1.0 / rho)`. -/
noncomputable def GothicMC.C_t (M : GothicMC) (a : ℝ) (c_prime : ℝ → ℝ) : ℝ :=
  M.Va_t a c_prime ^ ((-1 : ℝ) / M.rho)

/-- The quantity `portfolio_return(R, share)` as the spec words it (§4.5):
`gross_return + (R - gross_return)·share`. -/
noncomputable def portfolio_return (R rreturn share : ℝ) : ℝ :=
  R + (rreturn - R) * share

/-- The quantity `marginal_value_of_share(a, share, none)` as the spec words it (§4.5):
`discount · (a/growth_factor) · E((θ,R) ↦ (R - gross_return) ·
marginal(portfolio_return(R, share)·a/growth_factor + θ))` — the
terminal case, where next period everything is spent. -/
noncomputable def marginal_value_of_share_spec (M : GothicMC) (a share : ℝ) : ℝ :=
  M.beta * (a / M.Gamma) * jointE M.inc M.ret (fun tinc_shk rreturn =>
    (rreturn - M.R) * uprime M.rho
      (portfolio_return M.R rreturn share * a / M.Gamma + tinc_shk))

/-- The quantity `marginal_value_of_share(a, share, c_next)` as the spec words it
(§4.5), non-terminal case: the marginal utility is evaluated at the
next-period consumption of the portfolio argument. -/
noncomputable def marginal_value_of_share_spec_t (M : GothicMC) (a share : ℝ)
    (c_prime : ℝ → ℝ) : ℝ :=
  M.beta * (a / M.Gamma) * jointE M.inc M.ret (fun tinc_shk rreturn =>
    (rreturn - M.R) * uprime M.rho
      (c_prime (portfolio_return M.R rreturn share * a / M.Gamma + tinc_shk)))

/-- The raw (unclipped) consumption of the portfolio grid sweep:
`gothicMC.C_Tminus1(a)` in the terminal step, `gothicMC.C_t(a, cFunc)`
in the others (src lines 1233 and 1266). -/
noncomputable def rawMC (M : GothicMC) (cn : Option (ℝ → ℝ)) (a : ℝ) : ℝ :=
  match cn with
  | none => M.C_Tminus1 a
  | some f => M.C_t a f

/-- One period of the portfolio grid sweep (src lines 1225-1242 and
1259-1274): knot lists `(mVec_port, cVec_port, varsigmaVec_port)`.  All
three lists start at `0`; each grid point `a` contributes `m = c + a`,
`c = np.minimum(c, m)` (unconditionally) and the solved share. -/
noncomputable def portPeriodKnots (M : GothicMC) (grid : List ℝ) (cn : Option (ℝ → ℝ)) :
    List ℝ × List ℝ × List ℝ :=
  ((0 : ℝ) :: grid.map (fun a => rawMC M cn a + a),
   (0 : ℝ) :: grid.map (fun a => min (rawMC M cn a) (rawMC M cn a + a)),
   (0 : ℝ) :: grid.map (fun a =>
     match cn with
     | none => M.varsigma_Tminus1 a
     | some f => M.varsigma_t a f))

/-- State of the portfolio backward loop (src lines 1196-1286) after `n`
iterations of `for t in range(T-2, 0, -1)`: the dictionaries keyed by
period (holding the knots) and the currently held knots.  Iteration `n`
(0-based) solves period `t = T-2-n`; the loop stops after period 1, i.e.
after `T-2` iterations. -/
noncomputable def portLifeState (M : GothicMC) (grid : List ℝ) (T : ℕ) :
    ℕ → ((ℕ → Option (List ℝ × List ℝ × List ℝ)) × (List ℝ × List ℝ × List ℝ))
  | 0 =>
    (fun p => if p = T - 1 then some (portPeriodKnots M grid none) else none,
     portPeriodKnots M grid none)
  | n + 1 =>
    (fun p =>
      if p = T - 2 - n then
        some (portPeriodKnots M grid
          (some (interp ((portLifeState M grid T n).2.1.zip
            (portLifeState M grid T n).2.2.1))))
      else (portLifeState M grid T n).1 p,
     portPeriodKnots M grid
       (some (interp ((portLifeState M grid T n).2.1.zip
         (portLifeState M grid T n).2.2.1))))

/-- A concrete one-node engine configuration used to instantiate the
hypotheses of the theorems below on explicit inputs. -/
noncomputable def M1 : GothicMC :=
  { beta := 1, rho := 1, Gamma := 1, R := 1,
    inc := [(1, 1)], ret := [(1, 1)], varsigma_grids := [0, 1] }

/-- A concrete one-shock single-control engine configuration used to
instantiate hypotheses on explicit inputs. -/
noncomputable def G1 : Gothic :=
  { beta := 1, rho := 1, Gamma := 1, R := 1, theta := [(1, 1)] }

/-! ### Helper lemmas -/

theorem EReal_toReal_nonneg {x : EReal} (h : 0 ≤ x) : 0 ≤ x.toReal := by
  induction x using EReal.rec with
  | h_bot => simp at h
  | h_real r => rw [EReal.toReal_coe]; exact_mod_cast h
  | h_top => simp

theorem EReal_toReal_nonpos {x : EReal} (h : x ≤ 0) : x.toReal ≤ 0 := by
  induction x using EReal.rec with
  | h_bot => simp
  | h_real r => rw [EReal.toReal_coe]; exact_mod_cast h
  | h_top => simp at h

/-- Discrete intermediate-value fact: in a list of FOC values that starts
non-negative and ends non-positive, some adjacent pair crosses zero. -/
theorem crossing_exists {α : Type} :
    ∀ (rest : List (α × EReal)) (p q : α × EReal),
      0 ≤ p.2 → (((p :: q :: rest).map Prod.snd).getLastD 0) ≤ 0 →
      ∃ pr ∈ (p :: q :: rest).zip (q :: rest), pr.2.2 ≤ 0 ∧ 0 ≤ pr.1.2 := by
  intro rest
  induction rest with
  | nil =>
    intro p q hp hlast
    refine ⟨(p, q), by simp, ?_, hp⟩
    simpa using hlast
  | cons r rs ih =>
    intro p q hp hlast
    by_cases hq : q.2 ≤ 0
    · exact ⟨(p, q), by simp, hq, hp⟩
    · push_neg at hq
      obtain ⟨pr, hmem, hpr⟩ := ih q r hq.le (by simpa using hlast)
      exact ⟨pr, List.mem_cons_of_mem _ hmem, hpr⟩

theorem optimalShare_neg (sgrids : List ℝ) (FOC_s : List EReal) (a : ℝ) (ha : a < 0) :
    optimalShareFromFOC sgrids FOC_s a = 0 := by
  rw [optimalShareFromFOC, if_pos ha]

/-- The share selector stays in `[0, 1]` whenever the grid has at least
two points, all inside `[0, 1]`. -/
theorem optimalShare_mem_unit (sgrids : List ℝ) (FOC_s : List EReal) (a : ℝ)
    (hlen2 : 2 ≤ sgrids.length) (hleq : sgrids.length = FOC_s.length)
    (hmem : ∀ s ∈ sgrids, 0 ≤ s ∧ s ≤ 1) :
    0 ≤ optimalShareFromFOC sgrids FOC_s a ∧ optimalShareFromFOC sgrids FOC_s a ≤ 1 := by
  unfold optimalShareFromFOC
  split
  · norm_num
  split
  · norm_num
  split
  · norm_num
  rename_i hneg hlast hhead
  push_neg at hlast hhead
  match sgrids, FOC_s, hleq with
  | s1 :: s2 :: gs, f1 :: f2 :: fs, hleq =>
    have hlen' : gs.length = fs.length := by simpa using hleq
    have hp2 : (0 : EReal) ≤ f1 := by simpa using hhead
    have hlast' : ((((s1, f1) :: (s2, f2) :: gs.zip fs).map Prod.snd).getLastD 0) ≤ 0 := by
      have hz : ((gs.zip fs).map Prod.snd) = fs := List.map_snd_zip gs fs hlen'.ge
      simp only [List.map_cons, hz]
      simpa using hlast
    obtain ⟨pr, hprmem, hpr1, hpr2⟩ :=
      crossing_exists (gs.zip fs) (s1, f1) (s2, f2) hp2 hlast'
    have hzip : (s1 :: s2 :: gs).zip (f1 :: f2 :: fs)
        = (s1, f1) :: (s2, f2) :: gs.zip fs := by simp
    rw [hzip]
    cases hfind : (((s1, f1) :: (s2, f2) :: gs.zip fs).zip
        (((s1, f1) :: (s2, f2) :: gs.zip fs)).tail).find?
        (fun pr => decide (pr.2.2 ≤ 0) && decide (0 ≤ pr.1.2)) with
    | none =>
      exfalso
      rw [List.find?_eq_none] at hfind
      refine hfind pr ?_ ?_
      · simpa using hprmem
      · simp [hpr1, hpr2]
    | some prf =>
      have hptrue := List.find?_some hfind
      have hprfmem := List.mem_of_find?_eq_some hfind
      simp only [Bool.and_eq_true, decide_eq_true_eq] at hptrue
      obtain ⟨hf2le, hf1ge⟩ := hptrue
      have hmem1 : prf.1 ∈ (s1 :: s2 :: gs).zip (f1 :: f2 :: fs) := by
        rw [hzip]
        exact (List.of_mem_zip hprfmem).1
      have hmem2 : prf.2 ∈ (s1 :: s2 :: gs).zip (f1 :: f2 :: fs) := by
        rw [hzip]
        exact List.tail_subset _ (List.of_mem_zip hprfmem).2
      have hs1 : prf.1.1 ∈ s1 :: s2 :: gs := (List.of_mem_zip hmem1).1
      have hs2 : prf.2.1 ∈ s1 :: s2 :: gs := (List.of_mem_zip hmem2).1
      obtain ⟨hb1, hb2⟩ := hmem _ hs1
      obtain ⟨hc1, hc2⟩ := hmem _ hs2
      set t := prf.2.2.toReal with ht
      set b := prf.1.2.toReal with hb
      have htle : t ≤ 0 := EReal_toReal_nonpos hf2le
      have hble : 0 ≤ b := EReal_toReal_nonneg hf1ge
      have hdiv : 0 ≤ t / (t - b) ∧ t / (t - b) ≤ 1 := by
        rcases eq_or_lt_of_le (show t - b ≤ 0 by linarith) with h | h
        · rw [h, div_zero]; norm_num
        · constructor
          · exact div_nonneg_iff.mpr (Or.inr ⟨htle, h.le⟩)
          · rw [div_le_one_iff]
            exact Or.inr (Or.inr ⟨h, by linarith⟩)
      obtain ⟨hd1, hd2⟩ := hdiv
      constructor
      · have h1 := mul_nonneg (show (0:ℝ) ≤ 1 - (1 - t / (t - b)) by linarith) hb1
        have h2 := mul_nonneg (show (0:ℝ) ≤ 1 - t / (t - b) by linarith) hc1
        linarith
      · nlinarith [mul_nonneg (show (0:ℝ) ≤ 1 - (1 - t / (t - b)) by linarith) hb1]

theorem getLastD_map_top :
    ∀ (l : List ℝ) (d : EReal), l ≠ [] → (l.map (fun _ => (⊤ : EReal))).getLastD d = ⊤ := by
  intro l
  induction l with
  | nil => intro d h; simp at h
  | cons x t ih =>
    intro d _
    cases t with
    | nil => simp
    | cons y s => simpa using ih ⊤ (by simp)

/-! ### Claim theorems -/

/-- C1: implied consumption satisfies the first-order condition: whenever
the expected marginal value `Va` is strictly positive, applying marginal
utility `x ↦ x^(-ρ)` to `C_t(a, c_prime) = Va_t(a, c_prime)^(-1/ρ)` gives
back exactly `Va_t(a, c_prime)`, and likewise `C_Tminus1` against
`Va_Tminus1` — inverse marginal utility of the expected marginal value,
with no search. -/
theorem C1_implied_consumption_foc (M : GothicMC) (a : ℝ) (c_prime : ℝ → ℝ)
    (hrho : 0 < M.rho) :
    (0 < M.Va_Tminus1 a → uprime M.rho (M.C_Tminus1 a) = M.Va_Tminus1 a) ∧
    (0 < M.Va_t a c_prime → uprime M.rho (M.C_t a c_prime) = M.Va_t a c_prime) := by
  have key : ∀ x : ℝ, 0 < x → (x ^ ((-1 : ℝ) / M.rho)) ^ (-M.rho) = x := by
    intro x hx
    rw [← Real.rpow_mul hx.le]
    have he : (-1 : ℝ) / M.rho * -M.rho = 1 := by field_simp
    rw [he, Real.rpow_one]
  constructor
  · intro h
    rw [uprime, GothicMC.C_Tminus1]
    exact key _ h
  · intro h
    rw [uprime, GothicMC.C_t]
    exact key _ h

theorem C1_witness :
    0 < M1.rho ∧
    (0 < M1.Va_Tminus1 1 ∧ uprime M1.rho (M1.C_Tminus1 1) = M1.Va_Tminus1 1) ∧
    (0 < M1.Va_t 1 (fun _ => 1) ∧
      uprime M1.rho (M1.C_t 1 (fun _ => 1)) = M1.Va_t 1 (fun _ => 1)) := by
  have hrho : 0 < M1.rho := by norm_num [M1]
  have hT : 0 < M1.Va_Tminus1 1 := by
    simp [GothicMC.Va_Tminus1, jointE, uprime, M1]
    positivity
  have ht : 0 < M1.Va_t 1 (fun _ => 1) := by
    simp [GothicMC.Va_t, jointE, uprime, M1]
  exact ⟨hrho,
    ⟨hT, (C1_implied_consumption_foc M1 1 (fun _ => 1) hrho).1 hT⟩,
    ⟨ht, (C1_implied_consumption_foc M1 1 (fun _ => 1) hrho).2 ht⟩⟩

/-- C3: the share solvers return exactly 0 for `a < 0`; for `a ≥ 0`,
with a share grid of at least two points lying in `[0, 1]`, they return a
value in `[0, 1]`, whether through the `share = 1` corner, the
`share = 0` corner, or the bracket-and-interpolate step. -/
theorem C3_optimal_share_bounds (M : GothicMC) (a : ℝ) (c_prime : ℝ → ℝ)
    (hlen : 2 ≤ M.varsigma_grids.length)
    (hunit : ∀ s ∈ M.varsigma_grids, 0 ≤ s ∧ s ≤ 1) :
    (a < 0 → M.varsigma_Tminus1 a = 0 ∧ M.varsigma_t a c_prime = 0) ∧
    (0 ≤ a →
      (0 ≤ M.varsigma_Tminus1 a ∧ M.varsigma_Tminus1 a ≤ 1) ∧
      (0 ≤ M.varsigma_t a c_prime ∧ M.varsigma_t a c_prime ≤ 1)) := by
  constructor
  · intro ha
    exact ⟨optimalShare_neg _ _ _ ha, optimalShare_neg _ _ _ ha⟩
  · intro _
    constructor
    · exact optimalShare_mem_unit _ _ _ hlen (List.length_map _ _).symm hunit
    · exact optimalShare_mem_unit _ _ _ hlen (List.length_map _ _).symm hunit

theorem C3_witness :
    (2 ≤ M1.varsigma_grids.length) ∧ (∀ s ∈ M1.varsigma_grids, 0 ≤ s ∧ s ≤ 1) ∧
    (0 ≤ M1.varsigma_Tminus1 1 ∧ M1.varsigma_Tminus1 1 ≤ 1) ∧
    (0 ≤ M1.varsigma_t 1 (fun _ => 1) ∧ M1.varsigma_t 1 (fun _ => 1) ≤ 1) := by
  have h1 : 2 ≤ M1.varsigma_grids.length := by simp [M1]
  have h2 : ∀ s ∈ M1.varsigma_grids, 0 ≤ s ∧ s ≤ 1 := by
    intro s hs
    simp [M1] at hs
    rcases hs with rfl | rfl <;> norm_num
  exact ⟨h1, h2,
    ((C3_optimal_share_bounds M1 1 (fun _ => 1) h1 h2).2 (by norm_num)).1,
    ((C3_optimal_share_bounds M1 1 (fun _ => 1) h1 h2).2 (by norm_num)).2⟩

/-- C4 counterexample: at `a = 0` the marginal value of the share is the
`+∞` sentinel, but the share solver chooses share `1`, not share `0` as
the claim states: with the concrete configuration `M1` the solver's
`share = 1` corner test `FOC_s[-1] > 0` passes on `+∞`. -/
theorem C4_counterexample :
    M1.Vsigma_Tminus1 0 0 = ⊤ ∧ M1.varsigma_Tminus1 0 = 1 ∧ M1.varsigma_Tminus1 0 ≠ 0 := by
  refine ⟨by simp [GothicMC.Vsigma_Tminus1], ?_, ?_⟩
  · have hmap : M1.varsigma_grids.map (fun s => M1.Vsigma_Tminus1 0 s)
        = M1.varsigma_grids.map (fun _ => (⊤ : EReal)) := by
      refine List.map_congr_left ?_
      intro s _
      simp [GothicMC.Vsigma_Tminus1]
    rw [GothicMC.varsigma_Tminus1, hmap, optimalShareFromFOC,
      if_neg (by norm_num), if_pos]
    rw [getLastD_map_top _ _ (by simp [M1])]
    simp
  · have hmap : M1.varsigma_grids.map (fun s => M1.Vsigma_Tminus1 0 s)
        = M1.varsigma_grids.map (fun _ => (⊤ : EReal)) := by
      refine List.map_congr_left ?_
      intro s _
      simp [GothicMC.Vsigma_Tminus1]
    rw [GothicMC.varsigma_Tminus1, hmap, optimalShareFromFOC,
      if_neg (by norm_num), if_pos]
    · norm_num
    rw [getLastD_map_top _ _ (by simp [M1])]
    simp

/-- C4 amended: at exactly `a = 0` the marginal value of the portfolio
share (`Vsigma_Tminus1` and `Vsigma_t`) returns `+∞` for every share, and
the share solvers (`varsigma_Tminus1`, `varsigma_t`) then return share
`1` (the `+∞` sentinel satisfies their `share = 1` corner test); share
`0` is recorded at `a = 0` only by the prepended knot of the backward
solver, which also drops that knot from the share-policy fit. -/
theorem C4_amended_sentinel (M : GothicMC) (c_prime : ℝ → ℝ)
    (hne : M.varsigma_grids ≠ []) :
    (∀ s : ℝ, M.Vsigma_Tminus1 0 s = ⊤ ∧ M.Vsigma_t 0 s c_prime = ⊤) ∧
    M.varsigma_Tminus1 0 = 1 ∧ M.varsigma_t 0 c_prime = 1 := by
  refine ⟨fun s => ⟨by simp [GothicMC.Vsigma_Tminus1], by simp [GothicMC.Vsigma_t]⟩, ?_, ?_⟩
  · have hmap : M.varsigma_grids.map (fun s => M.Vsigma_Tminus1 0 s)
        = M.varsigma_grids.map (fun _ => (⊤ : EReal)) := by
      refine List.map_congr_left ?_
      intro s _
      simp [GothicMC.Vsigma_Tminus1]
    rw [GothicMC.varsigma_Tminus1, hmap, optimalShareFromFOC,
      if_neg (by norm_num), if_pos]
    rw [getLastD_map_top _ _ hne]
    simp
  · have hmap : M.varsigma_grids.map (fun s => M.Vsigma_t 0 s c_prime)
        = M.varsigma_grids.map (fun _ => (⊤ : EReal)) := by
      refine List.map_congr_left ?_
      intro s _
      simp [GothicMC.Vsigma_t]
    rw [GothicMC.varsigma_t, hmap, optimalShareFromFOC,
      if_neg (by norm_num), if_pos]
    rw [getLastD_map_top _ _ hne]
    simp

theorem C4_witness :
    M1.varsigma_grids ≠ [] ∧
    M1.Vsigma_Tminus1 0 (1 / 2) = ⊤ ∧ M1.Vsigma_t 0 (1 / 2) (fun _ => 1) = ⊤ ∧
    M1.varsigma_Tminus1 0 = 1 ∧ M1.varsigma_t 0 (fun _ => 1) = 1 := by
  have hne : M1.varsigma_grids ≠ [] := by simp [M1]
  obtain ⟨hsent, hv1, hv2⟩ := C4_amended_sentinel M1 (fun _ => 1) hne
  exact ⟨hne, (hsent (1 / 2)).1, (hsent (1 / 2)).2, hv1, hv2⟩

/-- C5: for every `a ≠ 0` and share in `[0, 1]`, the marginal value of
the share equals `discount · (a/growth_factor)` times the joint
expectation of `(R - gross_return) · marginal_utility(portfolio_return(R,
share)·a/growth_factor + θ)` — terminal case and, with the marginal
utility evaluated at `c_prime` of that argument, the non-terminal case. -/
theorem C5_marginal_value_of_share (M : GothicMC) (a share : ℝ) (c_prime : ℝ → ℝ)
    (ha : a ≠ 0) (hs0 : 0 ≤ share) (hs1 : share ≤ 1) :
    M.Vsigma_Tminus1 a share = ((marginal_value_of_share_spec M a share : ℝ) : EReal) ∧
    M.Vsigma_t a share c_prime
      = ((marginal_value_of_share_spec_t M a share c_prime : ℝ) : EReal) := by
  constructor
  · rw [GothicMC.Vsigma_Tminus1, if_pos ha]
    norm_cast
    simp only [marginal_value_of_share_spec, portfolio_return]
    ring
  · rw [GothicMC.Vsigma_t, if_pos ha]
    norm_cast
    simp only [marginal_value_of_share_spec_t, portfolio_return]
    ring

theorem C5_witness :
    (1 : ℝ) ≠ 0 ∧ (0 : ℝ) ≤ 1 / 2 ∧ (1 / 2 : ℝ) ≤ 1 ∧
    M1.Vsigma_Tminus1 1 (1 / 2)
      = ((marginal_value_of_share_spec M1 1 (1 / 2) : ℝ) : EReal) ∧
    M1.Vsigma_t 1 (1 / 2) (fun _ => 1)
      = ((marginal_value_of_share_spec_t M1 1 (1 / 2) (fun _ => 1) : ℝ) : EReal) := by
  have h := C5_marginal_value_of_share M1 1 (1 / 2) (fun _ => 1)
    (by norm_num) (by norm_num) (by norm_num)
  exact ⟨by norm_num, by norm_num, by norm_num, h.1, h.2⟩

theorem nestLog_pos (n : ℕ) {x : ℝ} (hx : 0 < x) : 0 < nestLog n x := by
  induction n with
  | zero => simpa [nestLog]
  | succ m ih => exact Real.log_pos (by simp [nestLog]; linarith)

theorem nestExp_pos (n : ℕ) {x : ℝ} (hx : 0 < x) : 0 < nestExp n x := by
  induction n with
  | zero => simpa [nestExp]
  | succ m ih =>
    simp only [nestExp]
    have := Real.exp_lt_exp.mpr ih
    rw [Real.exp_zero] at this
    linarith

theorem nestExp_strictMono (n : ℕ) : StrictMono (nestExp n) := by
  induction n with
  | zero => exact fun x y h => by simpa [nestExp] using h
  | succ m ih =>
    intro x y h
    simp only [nestExp]
    have := Real.exp_lt_exp.mpr (ih h)
    linarith

theorem nestExp_succ' (n : ℕ) (x : ℝ) : nestExp (n + 1) x = nestExp n (Real.exp x - 1) := by
  induction n with
  | zero => simp [nestExp]
  | succ m ih =>
    rw [show nestExp (m + 1 + 1) x = Real.exp (nestExp (m + 1) x) - 1 from rfl, ih]
    rfl

theorem nestExp_nestLog (n : ℕ) {x : ℝ} (hx : 0 < x) : nestExp n (nestLog n x) = x := by
  induction n with
  | zero => rfl
  | succ m ih =>
    have hpos : 0 < nestLog m x := nestLog_pos m hx
    rw [show nestLog (m + 1) x = Real.log (nestLog m x + 1) from rfl,
      nestExp_succ', Real.exp_log (by linarith)]
    simpa using ih

/-- C9: for every `maxval > 0` and integer `size ≥ 1`,
`setup_grids_expMult(minval, maxval, size)` returns exactly `size` grid
points, strictly increasing, all strictly positive, with the largest
point equal to `maxval` under exact real arithmetic. -/
theorem C9_setup_grids (minval maxval : ℝ) (size : ℕ) (hmax : 0 < maxval) (hsz : 1 ≤ size) :
    (setup_grids_expMult minval maxval size).length = size ∧
    (setup_grids_expMult minval maxval size).Chain' (· < ·) ∧
    (∀ x ∈ setup_grids_expMult minval maxval size, 0 < x) ∧
    (setup_grids_expMult minval maxval size).getLast? = some maxval := by
  have hg : 0 < nestLog 20 maxval := nestLog_pos 20 hmax
  have hszR : (0 : ℝ) < (size : ℝ) := by exact_mod_cast Nat.pos_of_ne_zero (by omega)
  have hidx : 0 < nestLog 20 maxval / (size : ℝ) := div_pos hg hszR
  refine ⟨by simp [setup_grids_expMult], ?_, ?_, ?_⟩
  · rw [setup_grids_expMult, List.chain'_iff_pairwise]
    rw [List.pairwise_map]
    refine (List.pairwise_lt_range size).imp_of_mem ?_
    intro k k' hk hk' hkk'
    rw [List.mem_range] at hk hk'
    apply nestExp_strictMono
    have hnat : (size - 1 - k' : ℕ) < (size - 1 - k : ℕ) := by omega
    have : ((size - 1 - k' : ℕ) : ℝ) < ((size - 1 - k : ℕ) : ℝ) := by exact_mod_cast hnat
    nlinarith
  · intro x hx
    rw [setup_grids_expMult, List.mem_map] at hx
    obtain ⟨k, hk, rfl⟩ := hx
    rw [List.mem_range] at hk
    apply nestExp_pos
    have hle : ((size - 1 - k : ℕ) : ℝ) ≤ ((size - 1 : ℕ) : ℝ) := by
      exact_mod_cast Nat.sub_le _ _
    have hcast : ((size - 1 : ℕ) : ℝ) = (size : ℝ) - 1 := by
      have : (1 : ℕ) ≤ size := hsz
      push_cast [Nat.cast_sub this]
      ring
    have hkey : ((size : ℝ) - 1) * (nestLog 20 maxval / (size : ℝ))
        = nestLog 20 maxval - nestLog 20 maxval / (size : ℝ) := by
      field_simp
      ring
    have h1 : ((size - 1 - k : ℕ) : ℝ) * (nestLog 20 maxval / (size : ℝ))
        ≤ nestLog 20 maxval - nestLog 20 maxval / (size : ℝ) := by
      rw [← hkey, ← hcast]
      exact mul_le_mul_of_nonneg_right hle hidx.le
    linarith
  · obtain ⟨m, rfl⟩ : ∃ m, size = m + 1 := ⟨size - 1, by omega⟩
    rw [setup_grids_expMult, List.range_succ, List.map_append]
    simp only [List.map_cons, List.map_nil]
    rw [List.getLast?_concat]
    have : (m + 1 - 1 - m : ℕ) = 0 := by omega
    rw [this]
    simp only [Nat.cast_zero, zero_mul, sub_zero]
    rw [nestExp_nestLog 20 hmax]

theorem C9_witness :
    (0 : ℝ) < 1 ∧ 1 ≤ 1 ∧
    ((setup_grids_expMult 0 1 1).length = 1 ∧
     (setup_grids_expMult 0 1 1).Chain' (fun x y => x < y) ∧
     (∀ x ∈ setup_grids_expMult 0 1 1, 0 < x) ∧
     (setup_grids_expMult 0 1 1).getLast? = some 1) := by
  refine ⟨by norm_num, le_refl 1, ?_⟩
  have h := C9_setup_grids 0 1 1 (by norm_num) (le_refl 1)
  exact ⟨h.1, h.2.1, h.2.2.1, h.2.2.2⟩

/-- Every knot pair stored by the simple life-cycle loop is the output of
`periodKnots` for some next-period policy argument. -/
theorem lifeState_store_shape (G : Gothic) (c : Bool) (grid : List ℝ) (T : ℕ) :
    ∀ (n : ℕ) (p : ℕ) (k : List ℝ × List ℝ), (lifeState G c grid T n).1 p = some k →
      ∃ cn, k = periodKnots G c grid cn := by
  intro n
  induction n with
  | zero =>
    intro p k h
    simp only [lifeState] at h
    split at h
    · exact ⟨none, (Option.some_inj.mp h).symm⟩
    · exact absurd h (by simp)
  | succ m ih =>
    intro p k h
    simp only [lifeState] at h
    split at h
    · exact ⟨_, (Option.some_inj.mp h).symm⟩
    · exact ih p k h

/-- Every knot triple stored by the portfolio backward loop is the output
of `portPeriodKnots` for some next-period policy argument. -/
theorem portLifeState_store_shape (M : GothicMC) (grid : List ℝ) (T : ℕ) :
    ∀ (n : ℕ) (p : ℕ) (k : List ℝ × List ℝ × List ℝ),
      (portLifeState M grid T n).1 p = some k → ∃ cn, k = portPeriodKnots M grid cn := by
  intro n
  induction n with
  | zero =>
    intro p k h
    simp only [portLifeState] at h
    split at h
    · exact ⟨none, (Option.some_inj.mp h).symm⟩
    · exact absurd h (by simp)
  | succ m ih =>
    intro p k h
    simp only [portLifeState] at h
    split at h
    · exact ⟨_, (Option.some_inj.mp h).symm⟩
    · exact ih p k h

/-- C6: for every solved period, the first knot of the stored consumption
policy has consumption `0`, placed at `m = self_a_min` (the natural limit
`-min(theta.X)·PermGroFac[0]/R`) under natural mode and at `m = 0` under
the artificial-at-zero mode, given that the natural limit is negative
(as it always is for strictly positive shock values). -/
theorem C6_first_knot (G : Gothic) (c : Bool) (grid : List ℝ) (T n p : ℕ)
    (ms cs : List ℝ) (hmin : G.self_a_min < 0)
    (h : (lifeState G c grid T n).1 p = some (ms, cs)) :
    cs.head? = some 0 ∧ ms.head? = some (if c = true then 0 else G.self_a_min) := by
  obtain ⟨cn, hk⟩ := lifeState_store_shape G c grid T n p (ms, cs) h
  have hms : ms = (periodKnots G c grid cn).1 := congrArg Prod.fst hk
  have hcs : cs = (periodKnots G c grid cn).2 := congrArg Prod.snd hk
  rw [hms, hcs]
  cases c with
  | false => simp [periodKnots]
  | true => simp [periodKnots, hmin]

theorem C6_witness :
    G1.self_a_min < 0 ∧
    (periodKnots G1 true [] none).2.head? = some 0 ∧
    (periodKnots G1 true [] none).1.head?
      = some (if (true : Bool) = true then 0 else G1.self_a_min) := by
  have hmin : G1.self_a_min < 0 := by
    norm_num [Gothic.self_a_min, listMin, G1]
  have h := C6_first_knot G1 true [] 2 0 1
    (periodKnots G1 true [] none).1 (periodKnots G1 true [] none).2 hmin rfl
  exact ⟨hmin, h.1, h.2⟩

/-- C7: under the artificial-at-zero mode (`constrained = True`) every
stored consumption knot of every period satisfies `c ≤ m`, because the
grid-sweep clips `c` to `min(c, m)` before appending; under
`constrained = False` the stored controls are the raw implied
consumptions — no clipping is applied in the simple life-cycle solver. -/
theorem C7_constraint_clipping (G : Gothic) (grid : List ℝ) (cn : Option (ℝ → ℝ))
    (T n p : ℕ) (ms cs : List ℝ) :
    ((lifeState G true grid T n).1 p = some (ms, cs) →
      ∀ pr ∈ ms.zip cs, pr.2 ≤ pr.1) ∧
    (periodKnots G false grid cn).2 = 0 :: grid.map (fun a => rawC G cn a) ∧
    (periodKnots G true grid cn).2
      = 0 :: grid.map (fun a => min (rawC G cn a) (rawC G cn a + a)) := by
  refine ⟨?_, by simp [periodKnots], by simp [periodKnots]⟩
  intro h
  obtain ⟨cn', hk⟩ := lifeState_store_shape G true grid T n p (ms, cs) h
  have hms : ms = (periodKnots G true grid cn').1 := congrArg Prod.fst hk
  have hcs : cs = (periodKnots G true grid cn').2 := congrArg Prod.snd hk
  rw [hms, hcs]
  simp only [periodKnots, List.zip_cons_cons]
  intro pr hpr
  rcases List.mem_cons.mp hpr with rfl | hpr2
  · simp only
    split
    · exact le_refl 0
    · rename_i hcond
      simp only [true_and] at hcond
      exact le_of_not_lt hcond
  · rw [List.zip_map'] at hpr2
    obtain ⟨a, ha, rfl⟩ := List.mem_map.mp hpr2
    simp only [if_pos rfl]
    exact min_le_right _ _

theorem C7_witness :
    ((lifeState G1 true [] 2 0).1 1
        = some ((periodKnots G1 true [] none).1, (periodKnots G1 true [] none).2)) ∧
    (∀ pr ∈ ((periodKnots G1 true [] none).1).zip (periodKnots G1 true [] none).2,
      pr.2 ≤ pr.1) ∧
    (periodKnots G1 false [] (some (fun x => x))).2
      = 0 :: [].map (fun a => rawC G1 (some (fun x => x)) a) := by
  have h := C7_constraint_clipping G1 [] (some (fun x => x)) 2 0 1
    (periodKnots G1 true [] none).1 (periodKnots G1 true [] none).2
  exact ⟨rfl, h.1 rfl, h.2.1⟩

/-- C10: every period stored by the portfolio backward loop begins with
the knot `(m, c) = (0, 0)`, and every stored consumption knot satisfies
`c ≤ m`: each grid point's consumption is clipped to `min(c, m)`
unconditionally — there is no constraint-mode switch and the natural
borrowing limit is never used in the portfolio solver. -/
theorem C10_portfolio_clipping (M : GothicMC) (grid : List ℝ) (T n p : ℕ)
    (ms cs ss : List ℝ)
    (h : (portLifeState M grid T n).1 p = some (ms, cs, ss)) :
    ms.head? = some 0 ∧ cs.head? = some 0 ∧ ∀ pr ∈ ms.zip cs, pr.2 ≤ pr.1 := by
  obtain ⟨cn, hk⟩ := portLifeState_store_shape M grid T n p (ms, cs, ss) h
  have hms : ms = (portPeriodKnots M grid cn).1 := congrArg Prod.fst hk
  have hcs : cs = (portPeriodKnots M grid cn).2.1 := congrArg (fun x => x.2.1) hk
  rw [hms, hcs]
  refine ⟨rfl, rfl, ?_⟩
  simp only [portPeriodKnots, List.zip_cons_cons]
  intro pr hpr
  rcases List.mem_cons.mp hpr with rfl | hpr2
  · exact le_refl 0
  · rw [List.zip_map'] at hpr2
    obtain ⟨a, ha, rfl⟩ := List.mem_map.mp hpr2
    exact min_le_right _ _

theorem C10_witness :
    ((portLifeState M1 [] 2 0).1 1
        = some ((portPeriodKnots M1 [] none).1, (portPeriodKnots M1 [] none).2.1,
            (portPeriodKnots M1 [] none).2.2)) ∧
    ((portPeriodKnots M1 [] none).1.head? = some 0 ∧
     (portPeriodKnots M1 [] none).2.1.head? = some 0 ∧
     ∀ pr ∈ ((portPeriodKnots M1 [] none).1).zip (portPeriodKnots M1 [] none).2.1,
       pr.2 ≤ pr.1) := by
  exact ⟨rfl, C10_portfolio_clipping M1 [] 2 0 1 _ _ _ rfl⟩

/-- Keys present in the simple life-cycle dictionary after `k` loop
iterations: exactly the periods `T-1-k .. T-1`. -/
theorem lifeState_keys (G : Gothic) (c : Bool) (grid : List ℝ) (T : ℕ) :
    ∀ k, k ≤ T - 1 → ∀ p,
      (((lifeState G c grid T k).1 p).isSome = true ↔ (T - 1 - k ≤ p ∧ p ≤ T - 1)) := by
  intro k
  induction k with
  | zero =>
    intro _ p
    simp only [lifeState]
    by_cases hp : p = T - 1
    · subst hp; simp
    · rw [if_neg hp]; simp; omega
  | succ m ih =>
    intro hk p
    simp only [lifeState]
    by_cases hp : p = T - 2 - m
    · rw [if_pos hp]; simp; omega
    · rw [if_neg hp, ih (by omega) p]
      omega

/-- Keys present in the portfolio dictionary after `k` loop iterations:
exactly the periods `T-1-k .. T-1` (the loop stops after `T-2`
iterations, so period 0 is never inserted). -/
theorem portLifeState_keys (M : GothicMC) (grid : List ℝ) (T : ℕ) :
    ∀ k, k ≤ T - 2 → ∀ p,
      (((portLifeState M grid T k).1 p).isSome = true ↔ (T - 1 - k ≤ p ∧ p ≤ T - 1)) := by
  intro k
  induction k with
  | zero =>
    intro _ p
    simp only [portLifeState]
    by_cases hp : p = T - 1
    · subst hp; simp
    · rw [if_neg hp]; simp; omega
  | succ m ih =>
    intro hk p
    simp only [portLifeState]
    by_cases hp : p = T - 2 - m
    · rw [if_pos hp]; simp; omega
    · rw [if_neg hp, ih (by omega) p]
      omega

/-- C8 counterexample: with horizon `T = 3`, after the portfolio backward
loop has finished (its final iteration, the `T-2`-nd, solves period 1 —
`range(T-2, 0, -1)` stops before 0), the portfolio life-cycle solution
has no entry for period 0, though it does hold periods 1 and 2. -/
theorem C8_counterexample :
    (portLifeState M1 [] 3 (3 - 2)).1 0 = none ∧
    ((portLifeState M1 [] 3 (3 - 2)).1 1).isSome = true ∧
    ((portLifeState M1 [] 3 (3 - 2)).1 2).isSome = true := by
  refine ⟨?_, ?_, ?_⟩ <;> simp [portLifeState]

/-- C8 amended: the simple life-cycle loop, after its `k`-th iteration,
holds a consumption policy exactly for periods `T-1-k .. T-1` — so after
the final iteration (`k = T-1`) every period `0 .. T-1` is present, the
solution is built strictly in decreasing period order, and no entry
exists before its period is solved.  The portfolio loop behaves the same
way but stops after `k = T-2` iterations, so it holds periods `1 .. T-1`
only and never an entry for period 0. -/
theorem C8_population (G : Gothic) (M : GothicMC) (c : Bool) (grid : List ℝ)
    (T k p : ℕ) (hT : 1 ≤ T) (hk : k ≤ T - 1) :
    (((lifeState G c grid T k).1 p).isSome = true ↔ (T - 1 - k ≤ p ∧ p ≤ T - 1)) ∧
    (k ≤ T - 2 →
      (((portLifeState M grid T k).1 p).isSome = true ↔ (T - 1 - k ≤ p ∧ p ≤ T - 1))) :=
  ⟨lifeState_keys G c grid T k hk p, fun hk2 => portLifeState_keys M grid T k hk2 p⟩

theorem C8_witness :
    (1 : ℕ) ≤ 3 ∧ (1 : ℕ) ≤ 3 - 1 ∧ (1 : ℕ) ≤ 3 - 2 ∧
    (((lifeState G1 true [] 3 1).1 1).isSome = true ↔ (3 - 1 - 1 ≤ 1 ∧ 1 ≤ 3 - 1)) ∧
    (((portLifeState M1 [] 3 1).1 1).isSome = true ↔ (3 - 1 - 1 ≤ 1 ∧ 1 ≤ 3 - 1)) := by
  have h := C8_population G1 M1 true [] 3 1 1 (by norm_num) (by norm_num)
  exact ⟨by norm_num, by norm_num, by norm_num, h.1, h.2 (by norm_num)⟩

/-! ### Interpolation lemmas -/

theorem seg_self (p q : ℝ × ℝ) : seg p q p.1 = p.2 := by
  simp [seg]

theorem seg_right (p q : ℝ × ℝ) (h : p.1 < q.1) : seg p q q.1 = q.2 := by
  have hne : q.1 - p.1 ≠ 0 := ne_of_gt (by linarith)
  rw [seg]
  field_simp

theorem seg_strictMono (p q : ℝ × ℝ) (h1 : p.1 < q.1) (h2 : p.2 < q.2) :
    StrictMono (seg p q) := by
  intro x y hxy
  rw [seg, seg]
  have hs : 0 < (q.2 - p.2) / (q.1 - p.1) := div_pos (by linarith) (by linarith)
  have hkey := mul_lt_mul_of_pos_right (sub_lt_sub_right hxy p.1) hs
  rw [← mul_div_assoc, ← mul_div_assoc] at hkey
  linarith

theorem interp_head_eval : ∀ (p q : ℝ × ℝ) (l : List (ℝ × ℝ)), p.1 ≤ q.1 →
    interp (p :: q :: l) p.1 = p.2 := by
  intro p q l hpq
  cases l with
  | nil => exact seg_self p q
  | cons r l2 =>
    simp only [interp]
    rw [if_pos hpq]
    exact seg_self p q

theorem interp_strictMono : ∀ (l : List (ℝ × ℝ)), 2 ≤ l.length → l.Chain' knotRel →
    StrictMono (interp l) := by
  intro l
  induction l with
  | nil => intro h; simp at h
  | cons p tl ih =>
    intro hlen hch
    cases tl with
    | nil => simp at hlen
    | cons q tl2 =>
      have hpq : knotRel p q := (List.chain'_cons.mp hch).1
      cases tl2 with
      | nil =>
        intro x y hxy
        exact seg_strictMono p q hpq.1 hpq.2 hxy
      | cons r tl3 =>
        have hch' : List.Chain' knotRel (q :: r :: tl3) := (List.chain'_cons.mp hch).2
        have ihq := ih (by simp) hch'
        have hqr : knotRel q r := (List.chain'_cons.mp hch').1
        intro x y hxy
        simp only [interp]
        by_cases hy : y ≤ q.1
        · rw [if_pos (le_trans hxy.le hy), if_pos hy]
          exact seg_strictMono p q hpq.1 hpq.2 hxy
        · push_neg at hy
          rw [if_neg (not_le.mpr hy)]
          by_cases hx : x ≤ q.1
          · rw [if_pos hx]
            have h1 : seg p q x ≤ q.2 := by
              have hmono := (seg_strictMono p q hpq.1 hpq.2).monotone hx
              rwa [seg_right p q hpq.1] at hmono
            have h2 : q.2 < interp (q :: r :: tl3) y := by
              have hq := ihq hy
              rwa [interp_head_eval q r tl3 hqr.1.le] at hq
            linarith
          · push_neg at hx
            rw [if_neg (not_le.mpr hx)]
            exact ihq hxy

theorem interp_pos (m0 : ℝ) (l : List (ℝ × ℝ)) (hlen : 1 ≤ l.length)
    (hch : List.Chain' knotRel ((m0, 0) :: l)) :
    ∀ x, m0 < x → 0 < interp ((m0, 0) :: l) x := by
  intro x hx
  cases l with
  | nil => simp at hlen
  | cons q l2 =>
    have hsm := interp_strictMono ((m0, 0) :: q :: l2) (by simp) hch
    have hq : knotRel (m0, 0) q := (List.chain'_cons.mp hch).1
    have h0 : interp ((m0, 0) :: q :: l2) m0 = 0 := interp_head_eval (m0, 0) q l2 hq.1.le
    have := hsm hx
    rwa [h0] at this

theorem chain'_zip : ∀ (l1 l2 : List ℝ), l1.Chain' (· < ·) → l2.Chain' (· < ·) →
    (l1.zip l2).Chain' knotRel := by
  intro l1
  induction l1 with
  | nil => intro l2 _ _; simp
  | cons a t1 ih =>
    intro l2 h1 h2
    cases l2 with
    | nil => simp
    | cons b t2 =>
      cases t1 with
      | nil => simp
      | cons a2 t1p =>
        cases t2 with
        | nil => simp
        | cons b2 t2p =>
          rw [List.zip_cons_cons, List.zip_cons_cons, List.chain'_cons]
          constructor
          · exact ⟨(List.chain'_cons.mp h1).1, (List.chain'_cons.mp h2).1⟩
          · have hih := ih (b2 :: t2p) (List.chain'_cons.mp h1).2 (List.chain'_cons.mp h2).2
            simpa using hih

theorem chain'_map_of_chain' {f : ℝ → ℝ} :
    ∀ (l : List ℝ), (∀ a b, a ∈ l → b ∈ l → a < b → f a < f b) → l.Chain' (· < ·) →
      (l.map f).Chain' (· < ·) := by
  intro l
  induction l with
  | nil => simp
  | cons a t ih =>
    intro himp hch
    cases t with
    | nil => simp
    | cons b s =>
      rw [List.map_cons, List.map_cons, List.chain'_cons]
      obtain ⟨hab, hchp⟩ := List.chain'_cons.mp hch
      constructor
      · exact himp a b (by simp) (by simp) hab
      · rw [← List.map_cons]
        exact ih (fun x y hx hy => himp x y (by simp [hx]) (by simp [hy])) hchp

/-! ### Engine monotonicity lemmas -/

theorem listMin_pos : ∀ (l : List ℝ), (∀ x ∈ l, 0 < x) → l ≠ [] → 0 < listMin l := by
  intro l
  induction l with
  | nil => intro _ h; exact absurd rfl h
  | cons x t ih =>
    intro hall _
    cases t with
    | nil => simpa [listMin] using hall x (by simp)
    | cons y s =>
      simp only [listMin]
      exact lt_min (hall x (by simp))
        (ih (fun z hz => hall z (List.mem_cons_of_mem _ hz)) (by simp))

theorem self_a_min_neg (G : Gothic) (hΓ : 0 < G.Gamma) (hR : 0 < G.R)
    (hθne : G.theta ≠ []) (hθv : ∀ vp ∈ G.theta, 0 < vp.1 ∧ 0 < vp.2) :
    G.self_a_min < 0 := by
  rw [Gothic.self_a_min]
  have hmin : 0 < listMin (G.theta.map Prod.fst) := by
    apply listMin_pos
    · intro x hx
      rw [List.mem_map] at hx
      obtain ⟨vp, hvp, rfl⟩ := hx
      exact (hθv vp hvp).1
    · simpa using hθne
  have hpos : 0 < listMin (G.theta.map Prod.fst) * G.Gamma / G.R :=
    div_pos (mul_pos hmin hΓ) hR
  rw [neg_mul, neg_div]
  linarith

theorem list_sum_lt_sum {α : Type} (F F' : α → ℝ) :
    ∀ (l : List α), l ≠ [] → (∀ x ∈ l, F' x < F x) → (l.map F').sum < (l.map F).sum := by
  intro l
  induction l with
  | nil => intro h; exact absurd rfl h
  | cons x t ih =>
    intro _ hlt
    simp only [List.map_cons, List.sum_cons]
    cases t with
    | nil => simpa using hlt x (by simp)
    | cons y s =>
      have h1 := hlt x (by simp)
      have h2 := ih (by simp) (fun z hz => hlt z (List.mem_cons_of_mem _ hz))
      linarith

theorem rpow_neg_anti {e x y : ℝ} (he : 0 < e) (hx : 0 < x) (hxy : x < y) :
    y ^ (-e) < x ^ (-e) := by
  rw [Real.rpow_neg hx.le, Real.rpow_neg (le_trans hx.le hxy.le)]
  have h1 : x ^ e < y ^ e := Real.rpow_lt_rpow hx.le hxy he
  have h2 : 0 < x ^ e := Real.rpow_pos_of_pos hx e
  exact inv_strictAnti₀ h2 h1

theorem VP_t_pos (G : Gothic) (f : ℝ → ℝ) (a : ℝ)
    (hβ : 0 < G.beta) (hR : 0 < G.R) (hΓ : 0 < G.Gamma)
    (hθne : G.theta ≠ []) (hθv : ∀ vp ∈ G.theta, 0 < vp.1 ∧ 0 < vp.2)
    (hf2 : ∀ x, 0 < x → 0 < f x) (ha : 0 < a) :
    0 < G.VP_t a f := by
  rw [Gothic.VP_t]
  apply mul_pos (mul_pos (mul_pos hβ hR) (Real.rpow_pos_of_pos hΓ _))
  apply List.sum_pos
  · intro x hxm
    rw [List.mem_map] at hxm
    obtain ⟨vp, hvp, rfl⟩ := hxm
    have hfrac : 0 < G.R * a / G.Gamma := div_pos (mul_pos hR ha) hΓ
    have harg : 0 < G.R * a / G.Gamma + vp.1 := by linarith [(hθv vp hvp).1]
    rw [uprime]
    exact mul_pos (hθv vp hvp).2 (Real.rpow_pos_of_pos (hf2 _ harg) _)
  · simpa using hθne

theorem VP_t_anti (G : Gothic) (f : ℝ → ℝ) (a b : ℝ)
    (hβ : 0 < G.beta) (hR : 0 < G.R) (hΓ : 0 < G.Gamma) (hρ : 0 < G.rho)
    (hθne : G.theta ≠ []) (hθv : ∀ vp ∈ G.theta, 0 < vp.1 ∧ 0 < vp.2)
    (hf1 : ∀ x y, 0 < x → x < y → f x < f y) (hf2 : ∀ x, 0 < x → 0 < f x)
    (ha : 0 < a) (hab : a < b) :
    G.VP_t b f < G.VP_t a f := by
  rw [Gothic.VP_t, Gothic.VP_t]
  apply mul_lt_mul_of_pos_left _ (mul_pos (mul_pos hβ hR) (Real.rpow_pos_of_pos hΓ _))
  apply list_sum_lt_sum _ _ _ hθne
  intro vp hvp
  have hfrac : 0 < G.R * a / G.Gamma := div_pos (mul_pos hR ha) hΓ
  have hargpos : 0 < G.R * a / G.Gamma + vp.1 := by linarith [(hθv vp hvp).1]
  have harglt : G.R * a / G.Gamma + vp.1 < G.R * b / G.Gamma + vp.1 := by
    have hfraclt : G.R * a / G.Gamma < G.R * b / G.Gamma := by
      gcongr
    linarith
  have hflt : f (G.R * a / G.Gamma + vp.1) < f (G.R * b / G.Gamma + vp.1) :=
    hf1 _ _ hargpos harglt
  have hfpos : 0 < f (G.R * a / G.Gamma + vp.1) := hf2 _ hargpos
  rw [uprime, uprime]
  exact mul_lt_mul_of_pos_left (rpow_neg_anti hρ hfpos hflt) (hθv vp hvp).2

theorem C_t_pos (G : Gothic) (f : ℝ → ℝ) (a : ℝ)
    (hβ : 0 < G.beta) (hR : 0 < G.R) (hΓ : 0 < G.Gamma)
    (hθne : G.theta ≠ []) (hθv : ∀ vp ∈ G.theta, 0 < vp.1 ∧ 0 < vp.2)
    (hf2 : ∀ x, 0 < x → 0 < f x) (ha : 0 < a) :
    0 < G.C_t a f := by
  rw [Gothic.C_t]
  exact Real.rpow_pos_of_pos (VP_t_pos G f a hβ hR hΓ hθne hθv hf2 ha) _

theorem C_t_strictMono (G : Gothic) (f : ℝ → ℝ) (a b : ℝ)
    (hβ : 0 < G.beta) (hR : 0 < G.R) (hΓ : 0 < G.Gamma) (hρ : 0 < G.rho)
    (hθne : G.theta ≠ []) (hθv : ∀ vp ∈ G.theta, 0 < vp.1 ∧ 0 < vp.2)
    (hf1 : ∀ x y, 0 < x → x < y → f x < f y) (hf2 : ∀ x, 0 < x → 0 < f x)
    (ha : 0 < a) (hab : a < b) :
    G.C_t a f < G.C_t b f := by
  rw [Gothic.C_t, Gothic.C_t]
  have h1 : G.VP_t b f < G.VP_t a f :=
    VP_t_anti G f a b hβ hR hΓ hρ hθne hθv hf1 hf2 ha hab
  have h2 : 0 < G.VP_t b f := VP_t_pos G f b hβ hR hΓ hθne hθv hf2 (lt_trans ha hab)
  have hexp : (-1 : ℝ) / G.rho = -(1 / G.rho) := by ring
  rw [hexp]
  exact rpow_neg_anti (by positivity) h2 h1

theorem rawC_none_props (G : Gothic)
    (hβ : 0 < G.beta) (hR : 0 < G.R) (hΓ : 0 < G.Gamma) (hρ : 0 < G.rho)
    (hθne : G.theta ≠ []) (hθv : ∀ vp ∈ G.theta, 0 < vp.1 ∧ 0 < vp.2) :
    (∀ x y, 0 < x → x < y → rawC G none x < rawC G none y) ∧
    (∀ x, 0 < x → 0 < rawC G none x) := by
  have hid : ∀ a : ℝ, rawC G none a = G.C_t a (fun x => x) := fun a => rfl
  constructor
  · intro x y hx hxy
    rw [hid, hid]
    exact C_t_strictMono G (fun x => x) x y hβ hR hΓ hρ hθne hθv
      (fun _ _ _ h => h) (fun _ h => h) hx hxy
  · intro x hx
    rw [hid]
    exact C_t_pos G (fun x => x) x hβ hR hΓ hθne hθv (fun _ h => h) hx

theorem rawC_some_props (G : Gothic) (f : ℝ → ℝ)
    (hβ : 0 < G.beta) (hR : 0 < G.R) (hΓ : 0 < G.Gamma) (hρ : 0 < G.rho)
    (hθne : G.theta ≠ []) (hθv : ∀ vp ∈ G.theta, 0 < vp.1 ∧ 0 < vp.2)
    (hf1 : ∀ x y, 0 < x → x < y → f x < f y) (hf2 : ∀ x, 0 < x → 0 < f x) :
    (∀ x y, 0 < x → x < y → rawC G (some f) x < rawC G (some f) y) ∧
    (∀ x, 0 < x → 0 < rawC G (some f) x) := by
  constructor
  · intro x y hx hxy
    exact C_t_strictMono G f x y hβ hR hΓ hρ hθne hθv hf1 hf2 hx hxy
  · intro x hx
    exact C_t_pos G f x hβ hR hΓ hθne hθv hf2 hx

theorem knotsInv_interp (k : List ℝ × List ℝ) (h : knotsInv k) :
    (∀ x y, 0 < x → x < y → interp (k.1.zip k.2) x < interp (k.1.zip k.2) y) ∧
    (∀ x, 0 < x → 0 < interp (k.1.zip k.2) x) := by
  obtain ⟨hm, hc, hlen, hlen2, ⟨m0, msp, hm0, hm0le⟩, ⟨csp, hcs⟩⟩ := h
  have hzch : (k.1.zip k.2).Chain' knotRel := chain'_zip _ _ hm hc
  have hzlen : 2 ≤ (k.1.zip k.2).length := by
    rw [List.length_zip]
    omega
  have hsm := interp_strictMono _ hzlen hzch
  refine ⟨fun x y _ hxy => hsm hxy, ?_⟩
  intro x hx
  have hzip_eq : k.1.zip k.2 = (m0, 0) :: msp.zip csp := by rw [hm0, hcs]; rfl
  have hlm := congrArg List.length hm0
  have hlc := congrArg List.length hcs
  simp only [List.length_cons] at hlm hlc
  rw [hzip_eq] at hzch ⊢
  apply interp_pos m0 (msp.zip csp) ?_ hzch x (lt_of_le_of_lt hm0le hx)
  rw [List.length_zip]
  omega

theorem periodKnots_inv (G : Gothic) (c : Bool) (grid : List ℝ) (cn : Option (ℝ → ℝ))
    (hgc : grid.Chain' (· < ·)) (hgpos : ∀ a ∈ grid, 0 < a) (hgne : grid ≠ [])
    (hamin : G.self_a_min < 0)
    (hraw1 : ∀ x y, 0 < x → x < y → rawC G cn x < rawC G cn y)
    (hraw2 : ∀ x, 0 < x → 0 < rawC G cn x) :
    knotsInv (periodKnots G c grid cn) := by
  obtain ⟨g1, grest, rfl⟩ : ∃ g1 grest, grid = g1 :: grest := by
    cases grid with
    | nil => exact absurd rfl hgne
    | cons g1 grest => exact ⟨g1, grest, rfl⟩
  have hg1 : 0 < g1 := hgpos g1 (by simp)
  have hm0le : (if c = true ∧ G.self_a_min < 0 then (0 : ℝ) else G.self_a_min) ≤ 0 := by
    split
    · exact le_refl 0
    · exact hamin.le
  have hmf : ∀ a b, a ∈ g1 :: grest → b ∈ g1 :: grest → a < b →
      rawC G cn a + a < rawC G cn b + b := by
    intro a b hma hmb hab
    have := hraw1 a b (hgpos a hma) hab
    linarith
  have hcf : ∀ a b, a ∈ g1 :: grest → b ∈ g1 :: grest → a < b →
      (if c = true then min (rawC G cn a) (rawC G cn a + a) else rawC G cn a) <
      (if c = true then min (rawC G cn b) (rawC G cn b + b) else rawC G cn b) := by
    intro a b hma hmb hab
    have h1 := hraw1 a b (hgpos a hma) hab
    have h2 : rawC G cn a + a < rawC G cn b + b := by linarith
    split
    · exact lt_min (lt_of_le_of_lt (min_le_left _ _) h1)
        (lt_of_le_of_lt (min_le_right _ _) h2)
    · exact h1
  refine ⟨?_, ?_, by simp [periodKnots], by simp [periodKnots], ?_, ?_⟩
  · rw [periodKnots]
    rw [List.chain'_cons']
    constructor
    · intro h hh
      simp only [List.map_cons, List.head?_cons, Option.mem_def, Option.some_inj] at hh
      have hrawg1 : 0 < rawC G cn g1 := hraw2 g1 hg1
      rw [← hh]
      have : 0 < rawC G cn g1 + g1 := by linarith
      linarith [hm0le]
    · exact chain'_map_of_chain' (g1 :: grest) hmf hgc
  · rw [periodKnots]
    rw [List.chain'_cons']
    constructor
    · intro h hh
      simp only [List.map_cons, List.head?_cons, Option.mem_def, Option.some_inj] at hh
      have hrawg1 : 0 < rawC G cn g1 := hraw2 g1 hg1
      rw [← hh]
      split
      · exact lt_min hrawg1 (by linarith)
      · exact hrawg1
    · exact chain'_map_of_chain' (g1 :: grest) hcf hgc
  · exact ⟨_, _, rfl, hm0le⟩
  · exact ⟨_, rfl⟩

theorem lifeState_inv (G : Gothic) (c : Bool) (grid : List ℝ) (T : ℕ)
    (hβ : 0 < G.beta) (hR : 0 < G.R) (hΓ : 0 < G.Gamma) (hρ : 0 < G.rho)
    (hθne : G.theta ≠ []) (hθv : ∀ vp ∈ G.theta, 0 < vp.1 ∧ 0 < vp.2)
    (hgc : grid.Chain' (· < ·)) (hgpos : ∀ a ∈ grid, 0 < a) (hgne : grid ≠ []) :
    ∀ n, knotsInv (lifeState G c grid T n).2 ∧
      (∀ p k, (lifeState G c grid T n).1 p = some k → knotsInv k) := by
  have hamin : G.self_a_min < 0 := self_a_min_neg G hΓ hR hθne hθv
  intro n
  induction n with
  | zero =>
    have hraw := rawC_none_props G hβ hR hΓ hρ hθne hθv
    have hk0 : knotsInv (periodKnots G c grid none) :=
      periodKnots_inv G c grid none hgc hgpos hgne hamin hraw.1 hraw.2
    refine ⟨hk0, ?_⟩
    intro p k h
    simp only [lifeState] at h
    split at h
    · rw [← Option.some_inj.mp h]
      exact hk0
    · exact absurd h (by simp)
  | succ m ih =>
    have hprev := ih.1
    have hf := knotsInv_interp _ hprev
    have hraw := rawC_some_props G
      (interp ((lifeState G c grid T m).2.1.zip (lifeState G c grid T m).2.2))
      hβ hR hΓ hρ hθne hθv hf.1 hf.2
    have hstep : knotsInv (periodKnots G c grid
        (some (interp ((lifeState G c grid T m).2.1.zip (lifeState G c grid T m).2.2)))) :=
      periodKnots_inv G c grid _ hgc hgpos hgne hamin hraw.1 hraw.2
    refine ⟨hstep, ?_⟩
    intro p k h
    simp only [lifeState] at h
    split at h
    · rw [← Option.some_inj.mp h]
      exact hstep
    · exact ih.2 p k h

/-- C2: for every period stored by the backward-induction loop, given a
strictly increasing asset grid of positive values (and a well-posed
configuration: positive discount factor, gross return, growth factor and
risk aversion, and a nonempty shock distribution with positive values and
probabilities), the cash-on-hand knot sequence `mVec` — the prepended
constraint-boundary knot followed by `m = c + a` for each grid point in
increasing order — is strictly increasing, with no duplicate values. -/
theorem C2_m_knots_strictly_increasing (G : Gothic) (c : Bool) (grid : List ℝ)
    (T n p : ℕ) (ms cs : List ℝ)
    (hβ : 0 < G.beta) (hR : 0 < G.R) (hΓ : 0 < G.Gamma) (hρ : 0 < G.rho)
    (hθne : G.theta ≠ []) (hθv : ∀ vp ∈ G.theta, 0 < vp.1 ∧ 0 < vp.2)
    (hgc : grid.Chain' (· < ·)) (hgpos : ∀ a ∈ grid, 0 < a) (hgne : grid ≠ [])
    (h : (lifeState G c grid T n).1 p = some (ms, cs)) :
    ms.Chain' (· < ·) ∧ ms.Pairwise (fun x y => x ≠ y) := by
  have hinv := (lifeState_inv G c grid T hβ hR hΓ hρ hθne hθv hgc hgpos hgne n).2
    p (ms, cs) h
  have hch : ms.Chain' (· < ·) := hinv.1
  refine ⟨hch, ?_⟩
  have hpw : ms.Pairwise (· < ·) := List.chain'_iff_pairwise.mp hch
  exact hpw.imp (fun hlt => ne_of_lt hlt)

theorem C2_witness :
    (0 < G1.beta ∧ 0 < G1.R ∧ 0 < G1.Gamma ∧ 0 < G1.rho) ∧
    (G1.theta ≠ [] ∧ ∀ vp ∈ G1.theta, 0 < vp.1 ∧ 0 < vp.2) ∧
    (([1] : List ℝ).Chain' (· < ·) ∧ (∀ a ∈ ([1] : List ℝ), 0 < a) ∧ ([1] : List ℝ) ≠ []) ∧
    ((periodKnots G1 true [1] none).1.Chain' (· < ·) ∧
      (periodKnots G1 true [1] none).1.Pairwise (fun x y => x ≠ y)) := by
  have h1 : 0 < G1.beta := by norm_num [G1]
  have h2 : 0 < G1.R := by norm_num [G1]
  have h3 : 0 < G1.Gamma := by norm_num [G1]
  have h4 : 0 < G1.rho := by norm_num [G1]
  have h5 : G1.theta ≠ [] := by simp [G1]
  have h6 : ∀ vp ∈ G1.theta, 0 < vp.1 ∧ 0 < vp.2 := by
    intro vp hvp
    simp [G1] at hvp
    rw [hvp]
    norm_num
  have h7 : ([1] : List ℝ).Chain' (· < ·) := by simp
  have h8 : ∀ a ∈ ([1] : List ℝ), 0 < a := by
    intro a ha
    simp at ha
    rw [ha]
    norm_num
  have h9 : ([1] : List ℝ) ≠ [] := by simp
  exact ⟨⟨h1, h2, h3, h4⟩, ⟨h5, h6⟩, ⟨h7, h8, h9⟩,
    C2_m_knots_strictly_increasing G1 true [1] 2 0 1
      (periodKnots G1 true [1] none).1 (periodKnots G1 true [1] none).2
      h1 h2 h3 h4 h5 h6 h7 h8 h9 rfl⟩
